import Mathlib

/-!
Shallow embedding of `src/main.py`: a small exchange adapter that loads the
list of markets from a market-listing endpoint and then fetches and
normalizes per-market ticker data.

Modelling decisions:
* Python `dict` (insertion-ordered, overwrite-in-place) is an association
  list (`List (String × α)`) with `dinsert` replacing the value of an
  existing key in place and appending new keys, as CPython does.
* JSON numeric payloads (`last`, `volume`, `converted_volume["usd"]`) are
  rationals `ℚ`; Python's `float(...)` applied to them is the identity in
  the model (no arithmetic is ever performed on the parsed values).
* A missing JSON field is `none`; `result.get(k)` returning `None` and then
  being concatenated raises `TypeError`, while `result[k]` on a missing key
  raises `KeyError` — both are constructors of `PyError`.
* The HTTP transport is an environment `Env` mapping the market-listing
  endpoint and each ticker URL to a response with a status and a body;
  `fetch_data`'s check `status == 200 or raise` is embedded at each call.
* `time.sleep(15)` and each GET are recorded in an event trace so that
  pacing and "no request was made" properties are statable.
-/

/-- Symb models the source's `Symbol` alias: a trading-pair string such as
`BTC/USDT` (the name `Symbol` is taken by Mathlib). -/
abbrev Symb := String

/-- TickerInfo from the source: last price and the two 24h volumes. -/
structure TickerInfo where
  last : ℚ
  baseVolume : ℚ
  quoteVolume : ℚ
deriving DecidableEq, Repr

/-- Errors the Python code can raise on the paths we model. -/
inductive PyError where
  | typeError
  | keyError (k : String)
  | transportError (status : Nat)
deriving DecidableEq, Repr

/-- Observable events of a fetch: a GET to a URL, or a blocking sleep. -/
inductive Event where
  | request (url : String)
  | sleep (n : Nat)
deriving DecidableEq, Repr

/-- Raw ticker object, one element of the `tickers` array of the per-market
response. `none` models an absent JSON key; `converted_volume` is an object
from which the code reads the key `usd`, so it is a nested option: the outer
layer is presence of `converted_volume`, the inner one presence of `usd`. -/
structure RawTicker where
  base : Option String
  target : Option String
  last : Option ℚ
  volume : Option ℚ
  converted_volume : Option (Option ℚ)
deriving DecidableEq, Repr

/-- One element of the market-listing response array; the code reads `item["id"]`. -/
structure MarketItem where
  id : Option String
deriving DecidableEq, Repr

/-- An HTTP response: status code and decoded body. -/
structure HttpResp (β : Type) where
  status : Nat
  body : β
deriving DecidableEq, Repr

/-- The transport environment: the fixed market-listing response and, for each
URL, the per-market ticker response (body: the optional `tickers` field). -/
structure Env where
  marketListing : HttpResp (List MarketItem)
  tickerResp : String → HttpResp (Option (List RawTicker))

/-- Python dict insertion: overwrite the value of an existing key in place,
otherwise append the new binding at the end. -/
def dinsert {α : Type} (k : String) (v : α) : List (String × α) → List (String × α)
  | [] => [(k, v)]
  | (k', v') :: rest => if k' = k then (k', v) :: rest else (k', v') :: dinsert k v rest

/-- Python dict lookup. -/
def dlookup {α : Type} (k : String) : List (String × α) → Option α
  | [] => none
  | (k', v) :: rest => if k' = k then some v else dlookup k rest

/-- Python `d.update(other)`: insert `other`'s bindings into `d` in order. -/
def dupdate {α : Type} : List (String × α) → List (String × α) → List (String × α)
  | d, [] => d
  | d, (k, v) :: rest => dupdate (dinsert k v d) rest

/-- Python `d.values()` in insertion order. -/
def dvalues {α : Type} (d : List (String × α)) : List α := d.map Prod.snd

/-- Keys of a dict, in order. -/
def dkeys {α : Type} (d : List (String × α)) : List String := d.map Prod.fst

/-- The registry `self.markets`: id ↦ id. -/
abbrev MarketsDict := List (String × String)

/-- A fetch result: Symbol ↦ TickerInfo. -/
abbrev TickerDict := List (String × TickerInfo)

/-- Python `str.replace(old, new)` scan, fuelled so that the recursion is
structural (each step consumes at least one character, so `fuel = l.length`
always suffices): at each position, a match of `pat` emits `rep` and skips
the occurrence, otherwise the character is kept and the scan moves on.
Occurrences are non-overlapping, left to right, as in CPython. -/
def pyReplaceFuel (pat rep : List Char) : Nat → List Char → List Char
  | _, [] => []
  | 0, l => l
  | fuel + 1, c :: rest =>
    if pat ≠ [] ∧ pat.isPrefixOf (c :: rest) then
      rep ++ pyReplaceFuel pat rep fuel (rest.drop (pat.length - 1))
    else
      c :: pyReplaceFuel pat rep fuel rest

/-- Python `str.replace(old, new)` on character lists (the source only calls
it with the nonempty pattern `":"`). -/
def pyReplace (pat rep : List Char) (l : List Char) : List Char :=
  pyReplaceFuel pat rep l.length l

/-- MyExchange._convert_symbol_to_ccxt: `symbols.replace(":", "/")`. -/
def convert_symbol_to_ccxt (symbols : String) : Symb :=
  String.mk (pyReplace [':'] ['/'] symbols.data)

/-- The loop body of `normalize_data` for one raw entry, in the source's
evaluation order: base, target (via `.get`, so a missing one is a
`TypeError` when concatenated), then `last`, `volume`,
`converted_volume["usd"]` (missing keys raise `KeyError`). -/
def normalizeEntry (r : RawTicker) : Except PyError (Symb × TickerInfo) :=
  match r.base with
  | none => .error .typeError
  | some b =>
    match r.target with
    | none => .error .typeError
    | some t =>
      let symbol := convert_symbol_to_ccxt (b ++ ":" ++ t)
      match r.last with
      | none => .error (.keyError "last")
      | some l =>
        match r.volume with
        | none => .error (.keyError "volume")
        | some v =>
          match r.converted_volume with
          | none => .error (.keyError "converted_volume")
          | some cv =>
            match cv with
            | none => .error (.keyError "usd")
            | some q => .ok (symbol, ⟨l, v, q⟩)

/-- The `for result in results` loop of `normalize_data`, accumulating into
the local dict; the first raising entry aborts the whole call. -/
def normalizeLoop : List RawTicker → TickerDict → Except PyError TickerDict
  | [], acc => .ok acc
  | r :: rest, acc =>
    match normalizeEntry r with
    | .error e => .error e
    | .ok (s, v) => normalizeLoop rest (dinsert s v acc)

/-- MyExchange.normalize_data on the `tickers` array. -/
def normalize_data (raws : List RawTicker) : Except PyError TickerDict :=
  normalizeLoop raws []

/-- Base URL of the adapter (`self.base_url`). -/
def base_url : String := "https://api.coingecko.com/"

/-- The market-listing URL hardcoded in `load_markets`. -/
def marketsUrl : String := "https://api.coingecko.com/api/v3/coins/markets?vs_currency=usd"

/-- The per-market ticker URL built in `fetch_tickers`. -/
def tickerUrl (symbol : String) : String :=
  base_url ++ "api/v3/coins/" ++ symbol ++ "/tickers?exchange_ids=binance"

/-- The `for item in data` loop of `load_markets`: register `item["id"]` under
itself; a missing `id` raises `KeyError` mid-loop, keeping earlier inserts. -/
def loadItems : List MarketItem → MarketsDict → MarketsDict × Option PyError
  | [], m => (m, none)
  | item :: rest, m =>
    match item.id with
    | none => (m, some (.keyError "id"))
    | some s => loadItems rest (dinsert s s m)

/-- MyExchange.load_markets: GET the listing URL; on 200 register every id,
otherwise raise `Exception(response)`. Returns the final registry, the
raised error if any, and the trace of requests made. -/
def load_markets (env : Env) (markets : MarketsDict) :
    MarketsDict × Option PyError × List Event :=
  let resp := env.marketListing
  if resp.status = 200 then
    let (m', e) := loadItems resp.body markets
    (m', e, [.request marketsUrl])
  else
    (markets, some (.transportError resp.status), [.request marketsUrl])

/-- The `for symbol in self.markets.values()` loop of `fetch_tickers`:
GET the ticker URL (raising on non-200), read `data['tickers']`, normalize,
`result.update(...)`, then `time.sleep(15)`, for each market in order. -/
def fetchLoop (env : Env) : List String → TickerDict → Except PyError TickerDict × List Event
  | [], acc => (.ok acc, [])
  | sym :: rest, acc =>
    let resp := env.tickerResp (tickerUrl sym)
    if resp.status = 200 then
      match resp.body with
      | none => (.error (.keyError "tickers"), [.request (tickerUrl sym)])
      | some raws =>
        match normalize_data raws with
        | .error e => (.error e, [.request (tickerUrl sym)])
        | .ok nd =>
          let (res, tr) := fetchLoop env rest (dupdate acc nd)
          (res, .request (tickerUrl sym) :: .sleep 15 :: tr)
    else
      (.error (.transportError resp.status), [.request (tickerUrl sym)])

/-- MyExchange.fetch_tickers: lazily load markets when the registry is empty
(`if not self.markets`), then run the per-market loop. Returns the final
registry, the result or raised error, and the event trace. -/
def fetch_tickers (env : Env) (markets : MarketsDict) :
    MarketsDict × Except PyError TickerDict × List Event :=
  if markets.isEmpty then
    match load_markets env markets with
    | (m', some e, tr) => (m', .error e, tr)
    | (m', none, tr) =>
      let (res, tr') := fetchLoop env (dvalues m') []
      (m', res, tr ++ tr')
  else
    let (res, tr) := fetchLoop env (dvalues markets) []
    (markets, res, tr)

/-!
Basic lemmas about the dict model.
-/

theorem dlookup_dinsert {α : Type} (k k' : String) (v : α) (d : List (String × α)) :
    dlookup k (dinsert k' v d) = if k' = k then some v else dlookup k d := by
  induction d with
  | nil => simp [dinsert, dlookup]
  | cons kv rest ih =>
    obtain ⟨k0, v0⟩ := kv
    by_cases h0 : k0 = k'
    · subst h0
      simp only [dinsert, if_pos rfl, dlookup]
      by_cases hk : k0 = k
      · simp [hk]
      · simp [hk]
    · simp only [dinsert, if_neg h0, dlookup]
      by_cases hk : k0 = k
      · subst hk
        have : ¬ k' = k0 := fun h => h0 h.symm
        simp [this]
      · simp [hk, ih]

theorem dkeys_cons {α : Type} (k : String) (v : α) (d : List (String × α)) :
    dkeys ((k, v) :: d) = k :: dkeys d := rfl

theorem dkeys_dinsert {α : Type} (k : String) (v : α) (d : List (String × α)) :
    dkeys (dinsert k v d) = if k ∈ dkeys d then dkeys d else dkeys d ++ [k] := by
  induction d with
  | nil => simp [dinsert, dkeys]
  | cons kv rest ih =>
    obtain ⟨k0, v0⟩ := kv
    by_cases h0 : k0 = k
    · simp [dinsert, h0, dkeys_cons, List.mem_cons]
    · have hk0 : ¬ k = k0 := fun h => h0 h.symm
      simp only [dinsert, if_neg h0, dkeys_cons, List.mem_cons]
      rw [ih]
      by_cases hm : k ∈ dkeys rest
      · simp [hm, hk0]
      · simp [hm, hk0]

theorem nodup_dkeys_dinsert {α : Type} (k : String) (v : α) (d : List (String × α))
    (h : (dkeys d).Nodup) : (dkeys (dinsert k v d)).Nodup := by
  rw [dkeys_dinsert]
  by_cases hm : k ∈ dkeys d
  · simpa [hm] using h
  · simp only [hm, if_false]
    simpa [List.nodup_append] using ⟨h, hm⟩

theorem dlookup_eq_none_of_not_mem {α : Type} (k : String) (d : List (String × α))
    (h : k ∉ dkeys d) : dlookup k d = none := by
  induction d with
  | nil => rfl
  | cons kv rest ih =>
    obtain ⟨k0, v0⟩ := kv
    simp only [dkeys_cons, List.mem_cons, not_or] at h
    have hne : ¬ k0 = k := fun hh => h.1 hh.symm
    simp only [dlookup, if_neg hne]
    exact ih h.2

theorem dlookup_dupdate {α : Type} (s : String) (nd : List (String × α)) :
    ∀ acc : List (String × α), (dkeys nd).Nodup →
      dlookup s (dupdate acc nd) = (dlookup s nd).or (dlookup s acc) := by
  induction nd with
  | nil => intro acc h; simp [dupdate, dlookup, Option.or]
  | cons kv rest ih =>
    intro acc h
    obtain ⟨k, v⟩ := kv
    simp only [dkeys, List.map_cons, List.nodup_cons] at h
    simp only [dupdate, dlookup]
    rw [ih (dinsert k v acc) h.2, dlookup_dinsert]
    by_cases hk : k = s
    · subst hk
      have : dlookup k rest = none :=
        dlookup_eq_none_of_not_mem k rest (by simpa [dkeys] using h.1)
      simp [this, Option.or]
    · simp [hk]

theorem normalizeLoop_nodup (raws : List RawTicker) :
    ∀ acc d, normalizeLoop raws acc = .ok d → (dkeys acc).Nodup → (dkeys d).Nodup := by
  induction raws with
  | nil =>
    intro acc d h hacc
    simp only [normalizeLoop] at h
    cases h
    exact hacc
  | cons r rest ih =>
    intro acc d h hacc
    simp only [normalizeLoop] at h
    cases he : normalizeEntry r with
    | error e => rw [he] at h; cases h
    | ok sv =>
      rw [he] at h
      exact ih (dinsert sv.1 sv.2 acc) d h (nodup_dkeys_dinsert sv.1 sv.2 acc hacc)

theorem normalize_data_nodup (raws : List RawTicker) (d : TickerDict)
    (h : normalize_data raws = .ok d) : (dkeys d).Nodup :=
  normalizeLoop_nodup raws [] d h (by simp [dkeys])

/-!
The single-character replace used by `convert_symbol_to_ccxt` is exactly a
character-wise substitution.
-/

theorem pyReplaceFuel_colon (fuel : Nat) : ∀ l : List Char, l.length ≤ fuel →
    pyReplaceFuel [':'] ['/'] fuel l = l.map (fun c => if c = ':' then '/' else c) := by
  induction fuel with
  | zero =>
    intro l hl
    cases l with
    | nil => rfl
    | cons c rest => simp at hl
  | succ n ih =>
    intro l hl
    cases l with
    | nil => rfl
    | cons c rest =>
      by_cases hc : c = ':'
      · subst hc
        have hstep : pyReplaceFuel [':'] ['/'] (n + 1) (':' :: rest)
            = '/' :: pyReplaceFuel [':'] ['/'] n rest := by
          simp [pyReplaceFuel, List.isPrefixOf]
        rw [hstep, ih rest (by simpa using Nat.le_of_succ_le_succ hl)]
        simp
      · have hpre : ([':'] : List Char).isPrefixOf (c :: rest) = false := by
          simp [List.isPrefixOf_cons₂, beq_iff_eq]
          exact fun h => hc h.symm
        have hstep : pyReplaceFuel [':'] ['/'] (n + 1) (c :: rest)
            = c :: pyReplaceFuel [':'] ['/'] n rest := by
          simp [pyReplaceFuel, hpre]
        rw [hstep, ih rest (by simpa using Nat.le_of_succ_le_succ hl)]
        simp [hc]

/-- C2: `_convert_symbol_to_ccxt` returns its input with every `:` replaced
by `/` and performs no case change: in particular `"btc:usdt"` yields
`"btc/usdt"`, not `"BTC/USDT"`. -/
theorem convert_symbol_colon_map :
    (∀ s : String, convert_symbol_to_ccxt s
        = String.mk (s.data.map (fun c => if c = ':' then '/' else c)))
    ∧ convert_symbol_to_ccxt "btc:usdt" = "btc/usdt" := by
  constructor
  · intro s
    unfold convert_symbol_to_ccxt pyReplace
    rw [pyReplaceFuel_colon s.data.length s.data (le_refl _)]
  · decide

/-!
End-to-end scenario environment: the listing returns `[{"id":"bitcoin"}]`
and the bitcoin ticker endpoint returns the single BTC/USDT raw ticker.
-/

def c1Env : Env where
  marketListing := ⟨200, [⟨some "bitcoin"⟩]⟩
  tickerResp := fun u =>
    if u = tickerUrl "bitcoin" then
      ⟨200, some [⟨some "BTC", some "USDT", some 57000, some 11328, some (some 3456789)⟩]⟩
    else ⟨404, none⟩

/-- C1: with a market-listing response `[{"id":"bitcoin"}]` and a bitcoin
ticker response containing the single raw ticker
`{base: "BTC", target: "USDT", last: "57000", volume: "11328",
converted_volume: {usd: "3456789"}}`, `fetch_tickers` starting from an empty
registry returns exactly the one-entry mapping
`{"BTC/USDT": TickerInfo(last=57000, baseVolume=11328, quoteVolume=3456789)}`. -/
theorem fetch_tickers_end_to_end :
    (fetch_tickers c1Env []).2.1
      = .ok [("BTC/USDT", ⟨57000, 11328, 3456789⟩)] := by
  rfl

/-- A transport environment whose market listing replies with status 404. -/
def c4Env : Env where
  marketListing := ⟨404, []⟩
  tickerResp := fun _ => ⟨404, none⟩

/-- C4: when the market-listing endpoint replies with a non-200 status,
`load_markets` raises the transport error carrying that status and leaves
the markets registry exactly as it was (in particular still empty when it
was empty), performing only the one listing request. -/
theorem load_markets_error_atomic (env : Env) (markets : MarketsDict)
    (h : env.marketListing.status ≠ 200) :
    load_markets env markets
      = (markets, some (.transportError env.marketListing.status),
         [.request marketsUrl]) := by
  unfold load_markets
  simp [h]

/-- Witness for C4: a concrete 404 listing leaves an empty registry empty
and raises the transport error with status 404. -/
theorem load_markets_error_atomic_witness :
    load_markets c4Env [] = ([], some (.transportError 404), [.request marketsUrl]) :=
  load_markets_error_atomic c4Env [] (by decide)

/-!
Merge semantics across per-market batches.
-/

/-- C3: last-write-wins merge across batches. When the registry's values are
the two markets `m1, m2` (in that order), both per-market batches normalize
successfully and both contain the Symbol `s` — with values `v1` in the first
batch and `v2 ≠ v1` in the second — the aggregate mapping returned by
`fetch_tickers` maps `s` to `v2`, the value from the batch processed last. -/
theorem fetch_tickers_last_write_wins
    (env : Env) (M : MarketsDict) (m1 m2 s : String)
    (raws1 raws2 : List RawTicker) (nd1 nd2 : TickerDict) (v1 v2 : TickerInfo)
    (hM : M.isEmpty = false)
    (hvals : dvalues M = [m1, m2])
    (h1 : env.tickerResp (tickerUrl m1) = ⟨200, some raws1⟩)
    (h2 : env.tickerResp (tickerUrl m2) = ⟨200, some raws2⟩)
    (hn1 : normalize_data raws1 = .ok nd1)
    (hn2 : normalize_data raws2 = .ok nd2)
    (_hl1 : dlookup s nd1 = some v1)
    (hl2 : dlookup s nd2 = some v2)
    (_hne : v1 ≠ v2) :
    ∃ d, (fetch_tickers env M).2.1 = .ok d ∧ dlookup s d = some v2 := by
  have hloop : fetchLoop env [m1, m2] []
      = (.ok (dupdate (dupdate [] nd1) nd2),
         [.request (tickerUrl m1), .sleep 15, .request (tickerUrl m2), .sleep 15]) := by
    simp [fetchLoop, h1, h2, hn1, hn2]
  refine ⟨dupdate (dupdate [] nd1) nd2, ?_, ?_⟩
  · simp [fetch_tickers, hM, hvals, hloop]
  · rw [dlookup_dupdate s nd2 _ (normalize_data_nodup raws2 nd2 hn2), hl2]
    rfl

/-- Two-market environment for the last-write-wins witness: market `a`'s
batch and market `b`'s batch both produce Symbol `AAA/BBB`. -/
def c3Env : Env where
  marketListing := ⟨404, []⟩
  tickerResp := fun u =>
    if u = tickerUrl "b" then
      ⟨200, some [⟨some "AAA", some "BBB", some 2, some 20, some (some 200)⟩]⟩
    else
      ⟨200, some [⟨some "AAA", some "BBB", some 1, some 10, some (some 100)⟩]⟩

/-- Witness for C3 at a concrete two-market registry. -/
theorem fetch_tickers_last_write_wins_witness :
    ∃ d, (fetch_tickers c3Env [("a", "a"), ("b", "b")]).2.1 = .ok d ∧
      dlookup "AAA/BBB" d = some ⟨2, 20, 200⟩ :=
  fetch_tickers_last_write_wins c3Env [("a", "a"), ("b", "b")] "a" "b" "AAA/BBB"
    [⟨some "AAA", some "BBB", some 1, some 10, some (some 100)⟩]
    [⟨some "AAA", some "BBB", some 2, some 20, some (some 200)⟩]
    [("AAA/BBB", ⟨1, 10, 100⟩)] [("AAA/BBB", ⟨2, 20, 200⟩)]
    ⟨1, 10, 100⟩ ⟨2, 20, 200⟩
    (by rfl) (by rfl) (by decide) (by decide) (by rfl) (by rfl) (by rfl) (by rfl)
    (by decide)

/-!
Lazy market loading: requests made by `fetch_tickers` and the distinctness
of the two endpoints.
-/

theorem load_markets_trace (env : Env) (M : MarketsDict) :
    (load_markets env M).2.2 = [.request marketsUrl] := by
  unfold load_markets
  by_cases h : env.marketListing.status = 200
  · rw [if_pos h]
  · rw [if_neg h]

theorem tickerUrl_ne_marketsUrl (s : String) : tickerUrl s ≠ marketsUrl := by
  intro h
  have hl := congrArg String.length h
  simp only [tickerUrl, String.length_append] at hl
  have h1 : base_url.length = 26 := rfl
  have h2 : ("api/v3/coins/" : String).length = 13 := rfl
  have h3 : ("/tickers?exchange_ids=binance" : String).length = 29 := rfl
  have h4 : marketsUrl.length = 62 := rfl
  omega

theorem fetchLoop_requests (env : Env) (syms : List String) :
    ∀ (acc : TickerDict) (u : String),
      Event.request u ∈ (fetchLoop env syms acc).2 → ∃ sym ∈ syms, u = tickerUrl sym := by
  induction syms with
  | nil =>
    intro acc u hmem
    simp [fetchLoop] at hmem
  | cons sym rest ih =>
    intro acc u hmem
    rw [fetchLoop] at hmem
    rcases hr : env.tickerResp (tickerUrl sym) with ⟨st, body⟩
    rw [hr] at hmem
    by_cases hst : st = 200
    · rw [if_pos hst] at hmem
      dsimp only at hmem
      cases body with
      | none =>
        simp at hmem
        exact ⟨sym, by simp, hmem⟩
      | some raws =>
        dsimp only at hmem
        cases hnb : normalize_data raws with
        | error e =>
          rw [hnb] at hmem
          simp at hmem
          exact ⟨sym, by simp, hmem⟩
        | ok nd =>
          rw [hnb] at hmem
          simp only [List.mem_cons] at hmem
          rcases hmem with h1 | h1 | h1
          · exact ⟨sym, by simp, by injection h1⟩
          · cases h1
          · obtain ⟨s', hs', hu⟩ := ih (dupdate acc nd) u h1
            exact ⟨s', by simp [hs'], hu⟩
    · rw [if_neg hst] at hmem
      simp at hmem
      exact ⟨sym, by simp, hmem⟩

/-- C5: `fetch_tickers` triggers `load_markets` exactly when the registry is
empty at the start of the call: on an empty registry the first event is the
market-listing request, while on a non-empty registry the registry is
returned unchanged and no request in the trace targets the market-listing
endpoint. -/
theorem fetch_tickers_lazy_loading (env : Env) (M : MarketsDict) :
    (M.isEmpty = true →
       ((fetch_tickers env M).2.2).head? = some (.request marketsUrl))
    ∧ (M.isEmpty = false →
       (fetch_tickers env M).1 = M ∧
       ∀ u, Event.request u ∈ (fetch_tickers env M).2.2 → u ≠ marketsUrl) := by
  constructor
  · intro hM
    have htr := load_markets_trace env M
    rw [fetch_tickers, if_pos hM]
    rcases hlm : load_markets env M with ⟨m', e?, tr⟩
    rw [hlm] at htr
    simp only at htr
    subst htr
    cases e? with
    | none => rfl
    | some e => rfl
  · intro hM
    rw [fetch_tickers, if_neg (by simp [hM])]
    refine ⟨rfl, ?_⟩
    intro u hmem
    obtain ⟨sym, _, hu⟩ := fetchLoop_requests env (dvalues M) [] u hmem
    rw [hu]
    exact tickerUrl_ne_marketsUrl sym

/-- Witness for C5: on the empty registry the 404 environment still issues
the listing request first; on a one-entry registry the registry is unchanged
and the listing endpoint is never requested. -/
theorem fetch_tickers_lazy_loading_witness :
    ((fetch_tickers c4Env []).2.2).head? = some (.request marketsUrl)
    ∧ (fetch_tickers c1Env [("x", "bitcoin")]).1 = [("x", "bitcoin")] :=
  ⟨(fetch_tickers_lazy_loading c4Env []).1 rfl,
   ((fetch_tickers_lazy_loading c1Env [("x", "bitcoin")]).2 rfl).1⟩

/-!
Normalization failure aborts the whole fetch.
-/

/-- A raw entry lacks one of the fields `normalize_data` reads: `base` or
`target` (read via `.get` and concatenated), `last`, `volume`, or the
`converted_volume` object or its `usd` key. -/
def missingField (r : RawTicker) : Prop :=
  r.base = none ∨ r.target = none ∨ r.last = none ∨ r.volume = none ∨
    r.converted_volume = none ∨ r.converted_volume = some none

theorem normalizeEntry_error_of_missing (r : RawTicker) (h : missingField r) :
    ∃ e, normalizeEntry r = .error e := by
  rcases r with ⟨b, t, l, v, cv⟩
  rcases h with h | h | h | h | h | h <;> subst h
  · exact ⟨.typeError, rfl⟩
  · cases b with
    | none => exact ⟨.typeError, rfl⟩
    | some b0 => exact ⟨.typeError, rfl⟩
  · cases b with
    | none => exact ⟨.typeError, rfl⟩
    | some b0 =>
      cases t with
      | none => exact ⟨.typeError, rfl⟩
      | some t0 => exact ⟨.keyError "last", rfl⟩
  · cases b with
    | none => exact ⟨.typeError, rfl⟩
    | some b0 =>
      cases t with
      | none => exact ⟨.typeError, rfl⟩
      | some t0 =>
        cases l with
        | none => exact ⟨.keyError "last", rfl⟩
        | some l0 => exact ⟨.keyError "volume", rfl⟩
  · cases b with
    | none => exact ⟨.typeError, rfl⟩
    | some b0 =>
      cases t with
      | none => exact ⟨.typeError, rfl⟩
      | some t0 =>
        cases l with
        | none => exact ⟨.keyError "last", rfl⟩
        | some l0 =>
          cases v with
          | none => exact ⟨.keyError "volume", rfl⟩
          | some v0 => exact ⟨.keyError "converted_volume", rfl⟩
  · cases b with
    | none => exact ⟨.typeError, rfl⟩
    | some b0 =>
      cases t with
      | none => exact ⟨.typeError, rfl⟩
      | some t0 =>
        cases l with
        | none => exact ⟨.keyError "last", rfl⟩
        | some l0 =>
          cases v with
          | none => exact ⟨.keyError "volume", rfl⟩
          | some v0 => exact ⟨.keyError "usd", rfl⟩

theorem normalizeLoop_error_of_missing (raws : List RawTicker) (r : RawTicker)
    (hr : r ∈ raws) (hmiss : missingField r) :
    ∀ acc, ∃ e, normalizeLoop raws acc = .error e := by
  induction raws with
  | nil => cases hr
  | cons r0 rest ih =>
    intro acc
    rcases List.mem_cons.mp hr with h0 | h0
    · subst h0
      obtain ⟨e, he⟩ := normalizeEntry_error_of_missing r hmiss
      exact ⟨e, by simp [normalizeLoop, he]⟩
    · cases he : normalizeEntry r0 with
      | error e => exact ⟨e, by simp [normalizeLoop, he]⟩
      | ok sv =>
        obtain ⟨e, hrec⟩ := ih h0 (dinsert sv.1 sv.2 acc)
        exact ⟨e, by simp [normalizeLoop, he, hrec]⟩

theorem fetchLoop_error_of_missing (env : Env) (syms : List String) (m : String)
    (raws : List RawTicker) (r : RawTicker)
    (hm : m ∈ syms)
    (hresp : env.tickerResp (tickerUrl m) = ⟨200, some raws⟩)
    (hr : r ∈ raws) (hmiss : missingField r) :
    ∀ acc, ∃ e, (fetchLoop env syms acc).1 = .error e := by
  induction syms with
  | nil => cases hm
  | cons sym rest ih =>
    intro acc
    rw [fetchLoop]
    rcases List.mem_cons.mp hm with h0 | h0
    · subst h0
      rw [hresp]
      dsimp only
      obtain ⟨e, hn⟩ := normalizeLoop_error_of_missing raws r hr hmiss []
      rw [show normalize_data raws = .error e from hn]
      exact ⟨e, rfl⟩
    · rcases henv : env.tickerResp (tickerUrl sym) with ⟨st, body⟩
      by_cases hst : st = 200
      · rw [if_pos hst]
        dsimp only
        cases body with
        | none => exact ⟨.keyError "tickers", rfl⟩
        | some raws0 =>
          dsimp only
          cases hnb : normalize_data raws0 with
          | error e => exact ⟨e, rfl⟩
          | ok nd =>
            obtain ⟨e, hrec⟩ := ih h0 (dupdate acc nd)
            exact ⟨e, by simpa using hrec⟩
      · rw [if_neg hst]
        exact ⟨.transportError st, rfl⟩

/-- C6: if any raw ticker entry in any market's batch lacks a required field,
`fetch_tickers` (here on an already-populated registry) returns an error and
no result mapping at all — accumulated results are discarded with it. -/
theorem fetch_tickers_aborts_on_missing_field
    (env : Env) (M : MarketsDict) (m : String) (raws : List RawTicker) (r : RawTicker)
    (hM : M.isEmpty = false)
    (hm : m ∈ dvalues M)
    (hresp : env.tickerResp (tickerUrl m) = ⟨200, some raws⟩)
    (hr : r ∈ raws) (hmiss : missingField r) :
    ∃ e, (fetch_tickers env M).2.1 = .error e := by
  rw [fetch_tickers, if_neg (by simp [hM])]
  exact fetchLoop_error_of_missing env (dvalues M) m raws r hm hresp hr hmiss []

/-- Environment for the C6 witness: the single market's batch has one good
entry followed by one lacking `last`. -/
def c6Env : Env where
  marketListing := ⟨404, []⟩
  tickerResp := fun _ =>
    ⟨200, some [⟨some "AAA", some "BBB", some 1, some 10, some (some 100)⟩,
                ⟨some "CCC", some "DDD", none, some 10, some (some 100)⟩]⟩

/-- Witness for C6: a batch containing an entry without `last` makes the
whole fetch error out. -/
theorem fetch_tickers_aborts_on_missing_field_witness :
    ∃ e, (fetch_tickers c6Env [("a", "a")]).2.1 = .error e :=
  fetch_tickers_aborts_on_missing_field c6Env [("a", "a")] "a"
    [⟨some "AAA", some "BBB", some 1, some 10, some (some 100)⟩,
     ⟨some "CCC", some "DDD", none, some 10, some (some 100)⟩]
    ⟨some "CCC", some "DDD", none, some 10, some (some 100)⟩
    (by rfl) (by decide) (by rfl) (by decide)
    (Or.inr (Or.inr (Or.inl rfl)))

/-!
Where normalized volumes come from: each output TickerInfo carries exactly
the source payload's `volume` and `converted_volume["usd"]` values.
-/

theorem mem_dinsert {α : Type} (k : String) (v : α) (d : List (String × α)) (p : String × α)
    (h : p ∈ dinsert k v d) : p = (k, v) ∨ p ∈ d := by
  induction d with
  | nil => simpa [dinsert] using h
  | cons kv rest ih =>
    obtain ⟨k0, v0⟩ := kv
    by_cases h0 : k0 = k
    · subst h0
      rw [dinsert, if_pos rfl] at h
      rcases List.mem_cons.mp h with h1 | h1
      · exact Or.inl h1
      · exact Or.inr (List.mem_cons_of_mem _ h1)
    · rw [dinsert, if_neg h0] at h
      rcases List.mem_cons.mp h with h1 | h1
      · exact Or.inr (h1 ▸ List.mem_cons_self _ _)
      · rcases ih h1 with h2 | h2
        · exact Or.inl h2
        · exact Or.inr (List.mem_cons_of_mem _ h2)

theorem normalizeEntry_ok_fields (r : RawTicker) (s : Symb) (t : TickerInfo)
    (h : normalizeEntry r = .ok (s, t)) :
    r.last = some t.last ∧ r.volume = some t.baseVolume ∧
      r.converted_volume = some (some t.quoteVolume) := by
  rcases r with ⟨b, tg, l, v, cv⟩
  cases b with
  | none => simp [normalizeEntry] at h
  | some b0 =>
    cases tg with
    | none => simp [normalizeEntry] at h
    | some t0 =>
      cases l with
      | none => simp [normalizeEntry] at h
      | some l0 =>
        cases v with
        | none => simp [normalizeEntry] at h
        | some v0 =>
          cases cv with
          | none => simp [normalizeEntry] at h
          | some cv0 =>
            cases cv0 with
            | none => simp [normalizeEntry] at h
            | some q =>
              simp only [normalizeEntry, Except.ok.injEq, Prod.mk.injEq] at h
              obtain ⟨h1, h2⟩ := h
              subst h2
              simp

theorem normalizeLoop_mem_src (raws : List RawTicker) :
    ∀ acc d, normalizeLoop raws acc = .ok d → ∀ p ∈ d,
      p ∈ acc ∨ ∃ r ∈ raws, normalizeEntry r = .ok p := by
  induction raws with
  | nil =>
    intro acc d h p hp
    simp only [normalizeLoop, Except.ok.injEq] at h
    subst h
    exact Or.inl hp
  | cons r0 rest ih =>
    intro acc d h p hp
    rw [normalizeLoop] at h
    cases he : normalizeEntry r0 with
    | error e => rw [he] at h; cases h
    | ok sv =>
      rw [he] at h
      rcases ih (dinsert sv.1 sv.2 acc) d h p hp with hmem | ⟨r, hr, hok⟩
      · rcases mem_dinsert sv.1 sv.2 acc p hmem with heq | hmem'
        · exact Or.inr ⟨r0, List.mem_cons_self _ _, by rw [he, heq]⟩
        · exact Or.inl hmem'
      · exact Or.inr ⟨r, List.mem_cons_of_mem _ hr, hok⟩

/-- Counterexample to C7 as stated: `normalize_data` accepts a payload whose
`volume` field is the negative value -1 and returns it unchanged, so the
output `baseVolume` is negative, violating the claimed `baseVolume ≥ 0`. -/
theorem normalize_negative_volume_counterexample :
    ∃ d, normalize_data [⟨some "AAA", some "BBB", some 1, some (-1), some (some 100)⟩]
        = .ok d ∧ ∃ p ∈ d, p.2.baseVolume < 0 := by
  refine ⟨[("AAA/BBB", ⟨1, -1, 100⟩)], by rfl, ("AAA/BBB", ⟨1, -1, 100⟩), by simp, by norm_num⟩

/-- C7 amended: normalization copies the source's volume values verbatim, so
whenever every entry's `volume` and `converted_volume["usd"]` values are
nonnegative, every output TickerInfo has `baseVolume ≥ 0` and
`quoteVolume ≥ 0`; moreover each output's volumes are exactly some source
entry's values, so a nonzero source value yields that nonzero output. -/
theorem normalize_volumes_from_source
    (raws : List RawTicker) (d : TickerDict)
    (h : normalize_data raws = .ok d)
    (hnn : ∀ r ∈ raws, (∀ q : ℚ, r.volume = some q → 0 ≤ q) ∧
        (∀ q : ℚ, r.converted_volume = some (some q) → 0 ≤ q))
    (p : Symb × TickerInfo) (hp : p ∈ d) :
    0 ≤ p.2.baseVolume ∧ 0 ≤ p.2.quoteVolume ∧
      ∃ r ∈ raws, r.volume = some p.2.baseVolume ∧
        r.converted_volume = some (some p.2.quoteVolume) := by
  rcases normalizeLoop_mem_src raws [] d h p hp with hmem | ⟨r, hr, hok⟩
  · cases hmem
  · obtain ⟨_, hv, hcv⟩ := normalizeEntry_ok_fields r p.1 p.2 hok
    exact ⟨(hnn r hr).1 p.2.baseVolume hv, (hnn r hr).2 p.2.quoteVolume hcv,
      r, hr, hv, hcv⟩

/-- Witness for the amended C7 at a one-entry batch with volumes 10 and 100. -/
theorem normalize_volumes_from_source_witness :
    0 ≤ (TickerInfo.mk 1 10 100).baseVolume ∧ 0 ≤ (TickerInfo.mk 1 10 100).quoteVolume ∧
      ∃ r ∈ [RawTicker.mk (some "AAA") (some "BBB") (some 1) (some 10) (some (some 100))],
        r.volume = some (TickerInfo.mk 1 10 100).baseVolume ∧
          r.converted_volume = some (some (TickerInfo.mk 1 10 100).quoteVolume) :=
  normalize_volumes_from_source
    [RawTicker.mk (some "AAA") (some "BBB") (some 1) (some 10) (some (some 100))]
    [("AAA/BBB", TickerInfo.mk 1 10 100)] (by rfl)
    (by
      intro r hr
      simp only [List.mem_singleton] at hr
      subst hr
      constructor
      · intro q hq
        injection hq with h'
        rw [← h']
        norm_num
      · intro q hq
        injection hq with h'
        injection h' with h''
        rw [← h'']
        norm_num)
    ("AAA/BBB", TickerInfo.mk 1 10 100) (by simp)

/-!
Pacing: the trace of a successful per-market loop.
-/

theorem fetchLoop_trace_success (env : Env) (syms : List String) :
    ∀ acc d, (fetchLoop env syms acc).1 = .ok d →
      (fetchLoop env syms acc).2
        = syms.flatMap (fun s => [.request (tickerUrl s), .sleep 15]) := by
  induction syms with
  | nil => intro acc d h; simp [fetchLoop]
  | cons sym rest ih =>
    intro acc d h
    rw [fetchLoop] at h ⊢
    rcases hr : env.tickerResp (tickerUrl sym) with ⟨st, body⟩
    rw [hr] at h
    dsimp only at h ⊢
    by_cases hst : st = 200
    · rw [if_pos hst] at h ⊢
      cases body with
      | none => simp at h
      | some raws =>
        dsimp only at h ⊢
        cases hnb : normalize_data raws with
        | error e => rw [hnb] at h; simp at h
        | ok nd =>
          rw [hnb] at h
          dsimp only at h ⊢
          rw [List.flatMap_cons, ih (dupdate acc nd) d h]
          rfl
    · rw [if_neg hst] at h
      simp at h

/-- C8: during `fetch_tickers` over a non-empty registry, the event trace of
a successful fetch is exactly, for each market in order, its ticker request
followed by a blocking 15-unit sleep before the next market's request: the
fetch is strictly sequential with a 15-unit delay between consecutive
requests (the code also sleeps after the final market, which the claim
permits since it only says no delay is required there). -/
theorem fetch_tickers_pacing (env : Env) (M : MarketsDict) (d : TickerDict)
    (hM : M.isEmpty = false)
    (hok : (fetch_tickers env M).2.1 = .ok d) :
    (fetch_tickers env M).2.2
      = (dvalues M).flatMap (fun s => [.request (tickerUrl s), .sleep 15]) := by
  rw [fetch_tickers, if_neg (by simp [hM])] at hok ⊢
  exact fetchLoop_trace_success env (dvalues M) [] d hok

/-- Witness for C8: the single-market environment produces the trace
request-then-sleep-15. -/
theorem fetch_tickers_pacing_witness :
    (fetch_tickers c1Env [("x", "bitcoin")]).2.2
      = (dvalues [("x", "bitcoin")]).flatMap
          (fun s => [.request (tickerUrl s), .sleep 15]) :=
  fetch_tickers_pacing c1Env [("x", "bitcoin")]
    [("BTC/USDT", ⟨57000, 11328, 3456789⟩)] rfl rfl

/-!
Merging inside a single batch: the dict built by `normalize_data` maps each
Symbol to the TickerInfo of the last entry that produced it.
-/

/-- Specification helper: the TickerInfo of the last entry of a batch whose
normalization yields Symbol `s` (later entries take priority). -/
def lastKV : List RawTicker → Symb → Option TickerInfo
  | [], _ => none
  | r :: rest, s =>
    (lastKV rest s).or
      (match normalizeEntry r with
        | .ok sv => if sv.1 = s then some sv.2 else none
        | .error _ => none)

theorem normalizeLoop_dlookup (raws : List RawTicker) :
    ∀ acc d, normalizeLoop raws acc = .ok d → ∀ s,
      dlookup s d = (lastKV raws s).or (dlookup s acc) := by
  induction raws with
  | nil =>
    intro acc d h s
    simp only [normalizeLoop, Except.ok.injEq] at h
    subst h
    simp [lastKV, Option.or]
  | cons r rest ih =>
    intro acc d h s
    rw [normalizeLoop] at h
    cases he : normalizeEntry r with
    | error e => rw [he] at h; cases h
    | ok sv =>
      rw [he] at h
      rw [ih (dinsert sv.1 sv.2 acc) d h s, lastKV, he, dlookup_dinsert]
      cases hL : lastKV rest s with
      | some v => simp [Option.or]
      | none =>
        by_cases hs : sv.1 = s
        · simp [Option.or, hs]
        · simp [Option.or, hs]

theorem lastKV_append (as bs : List RawTicker) (s : Symb) :
    lastKV (as ++ bs) s = (lastKV bs s).or (lastKV as s) := by
  induction as with
  | nil => simp [lastKV]
  | cons a as ih =>
    rw [List.cons_append, lastKV, ih, lastKV]
    cases lastKV bs s <;> cases lastKV as s <;> simp [Option.or]

theorem lastKV_none_of_no_match (zs : List RawTicker) (s : Symb)
    (h : ∀ r ∈ zs, ∀ v, normalizeEntry r ≠ .ok (s, v)) : lastKV zs s = none := by
  induction zs with
  | nil => rfl
  | cons r rest ih =>
    rw [lastKV, ih (fun r' hr' => h r' (List.mem_cons_of_mem _ hr'))]
    cases he : normalizeEntry r with
    | error e => rfl
    | ok sv =>
      by_cases hs : sv.1 = s
      · exfalso
        exact h r (List.mem_cons_self _ _) sv.2 (by rw [he, ← hs])
      · simp [Option.or, hs]

/-- C9: within one call to `normalize_data`, when an earlier entry `r1` and a
later entry `r2` of the same batch both normalize to the Symbol `s` (with no
entry after `r2` yielding `s`), the returned mapping holds the TickerInfo of
the later entry `r2`. -/
theorem normalize_data_lww_within_batch
    (xs ys zs : List RawTicker) (r1 r2 : RawTicker) (s : Symb)
    (v1 v2 : TickerInfo) (d : TickerDict)
    (_h1 : normalizeEntry r1 = .ok (s, v1))
    (h2 : normalizeEntry r2 = .ok (s, v2))
    (hzs : ∀ r ∈ zs, ∀ v, normalizeEntry r ≠ .ok (s, v))
    (hd : normalize_data (xs ++ r1 :: ys ++ r2 :: zs) = .ok d) :
    dlookup s d = some v2 := by
  have hchar := normalizeLoop_dlookup (xs ++ r1 :: ys ++ r2 :: zs) [] d hd s
  have htail : lastKV (r2 :: zs) s = some v2 := by
    rw [lastKV, lastKV_none_of_no_match zs s hzs, h2]
    simp [Option.or]
  rw [hchar, lastKV_append, htail]
  simp [Option.or, dlookup]

/-- Witness for C9: a two-entry batch with the same Symbol keeps the second
entry's values. -/
theorem normalize_data_lww_within_batch_witness :
    dlookup "AAA/BBB"
        [("AAA/BBB", TickerInfo.mk 2 20 200)] = some (TickerInfo.mk 2 20 200) :=
  normalize_data_lww_within_batch [] [] []
    ⟨some "AAA", some "BBB", some 1, some 10, some (some 100)⟩
    ⟨some "AAA", some "BBB", some 2, some 20, some (some 200)⟩
    "AAA/BBB" ⟨1, 10, 100⟩ ⟨2, 20, 200⟩
    [("AAA/BBB", TickerInfo.mk 2 20 200)]
    (by rfl) (by rfl) (by intro r hr v; cases hr) (by rfl)

/-!
Registry invariants: identity entries, growth, merge on repeated loads.
-/

theorem loadItems_registry (items : List MarketItem) :
    ∀ M : MarketsDict, (∀ k v, dlookup k M = some v → v = k) →
      (∀ k v, dlookup k M = some v → dlookup k (loadItems items M).1 = some v)
      ∧ (∀ k v, dlookup k (loadItems items M).1 = some v → v = k) := by
  induction items with
  | nil => intro M hId; exact ⟨fun _ _ h => h, hId⟩
  | cons item rest ih =>
    intro M hId
    cases hid : item.id with
    | none =>
      rw [loadItems, hid]
      exact ⟨fun _ _ h => h, hId⟩
    | some s =>
      rw [loadItems, hid]
      have hId' : ∀ k v, dlookup k (dinsert s s M) = some v → v = k := by
        intro k v h
        rw [dlookup_dinsert] at h
        by_cases hks : s = k
        · rw [if_pos hks] at h
          injection h with h'
          rw [← h', hks]
        · rw [if_neg hks] at h
          exact hId k v h
      have hmono : ∀ k v, dlookup k M = some v → dlookup k (dinsert s s M) = some v := by
        intro k v h
        rw [dlookup_dinsert]
        by_cases hks : s = k
        · rw [if_pos hks]
          rw [hId k v h, hks]
        · rw [if_neg hks]
          exact h
      obtain ⟨g1, g2⟩ := ih (dinsert s s M) hId'
      exact ⟨fun k v h => g1 k v (hmono k v h), g2⟩

/-- C10: the markets registry only grows and holds identity entries. If every
entry of the registry maps a key to itself, then after `load_markets` every
pre-existing entry is still present (a repeated successful load merges into
the registry instead of replacing it) and every entry still maps its key to
itself; and `fetch_tickers` either leaves the registry untouched or changes
it exactly as `load_markets` does — no operation removes entries. -/
theorem load_markets_registry_growth (env : Env) (M : MarketsDict)
    (hId : ∀ k v, dlookup k M = some v → v = k) :
    (∀ k v, dlookup k M = some v → dlookup k (load_markets env M).1 = some v)
    ∧ (∀ k v, dlookup k (load_markets env M).1 = some v → v = k)
    ∧ ((fetch_tickers env M).1 = M ∨ (fetch_tickers env M).1 = (load_markets env M).1) := by
  have hmain :
      (∀ k v, dlookup k M = some v → dlookup k (load_markets env M).1 = some v)
      ∧ (∀ k v, dlookup k (load_markets env M).1 = some v → v = k) := by
    unfold load_markets
    by_cases h : env.marketListing.status = 200
    · rw [if_pos h]
      exact loadItems_registry env.marketListing.body M hId
    · rw [if_neg h]
      exact ⟨fun _ _ hh => hh, hId⟩
  refine ⟨hmain.1, hmain.2, ?_⟩
  by_cases hM : M.isEmpty
  · right
    rw [fetch_tickers, if_pos hM]
    rcases hlm : load_markets env M with ⟨m', e?, tr⟩
    cases e? with
    | none => rfl
    | some e => rfl
  · left
    rw [fetch_tickers, if_neg hM]

/-- Witness for C10: loading on top of the identity registry `{"a": "a"}`
keeps the entry `("a", "a")`. -/
theorem load_markets_registry_growth_witness :
    dlookup "a" (load_markets c1Env [("a", "a")]).1 = some "a" :=
  (load_markets_registry_growth c1Env [("a", "a")]
      (by
        intro k v h
        by_cases hk : "a" = k
        · rw [dlookup, if_pos hk] at h
          injection h with h'
          rw [← h', ← hk]
        · rw [dlookup, if_neg hk] at h
          cases h)).1 "a" "a" (by decide)
